import Mathlib

/-!
# Verification of the shuo voice-agent core

Shallow embedding of the per-call orchestration engine of the `shuo`
repository, together with theorems settling the spec's claims about it.

Embedded components:
* the pure turn state machine (`shuo/state.py`, `shuo/types.py`);
* the LLM service's per-turn history discipline (`shuo/services/llm.py`);
* the TTS connection pool's dispensing loop (`shuo/services/tts_pool.py`);
* the audio player's drain loop (`src/player.py`);
* the recognizer transcript delivery (`shuo/services/flux.py`).
-/

namespace Shuo

/-! ## State machine data model (shuo/types.py) -/

/-- Current phase of the conversation (`Phase` in types.py). -/
inductive Phase
| LISTENING
| RESPONDING
deriving DecidableEq, Repr

/-- Application state (`AppState` in types.py): routing information only. -/
structure AppState where
  phase : Phase
  stream_sid : Option String
deriving DecidableEq, Repr

/-- Events consumed by the loop (`Event` union in types.py).
Audio bytes are modelled as lists of byte values. -/
inductive Event
| StreamStart (stream_sid : String)
| StreamStop
| Media (audio_bytes : List Nat)
| FluxStartOfTurn
| FluxEndOfTurn (transcript : String)
| AgentTurnDone
deriving DecidableEq, Repr

/-- Actions produced by the pure transition (`Action` union in types.py). -/
inductive Action
| FeedFlux (audio_bytes : List Nat)
| StartAgentTurn (transcript : String)
| ResetAgentTurn
deriving DecidableEq, Repr

/-- The pure state machine `process_event` of shuo/state.py, branch for
branch.  Python's truthiness test `event.transcript` is the inequality
`t ≠ ""`. -/
def process_event (state : AppState) (event : Event) : AppState × List Action :=
  match event with
  | .StreamStart sid =>
      ({ state with stream_sid := some sid, phase := .LISTENING }, [])
  | .StreamStop =>
      if state.phase = .RESPONDING then (state, [.ResetAgentTurn])
      else (state, [])
  | .Media b => (state, [.FeedFlux b])
  | .FluxEndOfTurn t =>
      if t ≠ "" ∧ state.phase = .LISTENING then
        ({ state with phase := .RESPONDING }, [.StartAgentTurn t])
      else (state, [])
  | .FluxStartOfTurn =>
      if state.phase = .RESPONDING then
        ({ state with phase := .LISTENING }, [.ResetAgentTurn])
      else (state, [])
  | .AgentTurnDone =>
      if state.phase = .RESPONDING then
        ({ state with phase := .LISTENING }, [])
      else (state, [])

/-- C1: `StartAgentTurn` is emitted iff the event is `FluxEndOfTurn t` with
non-empty `t` and the phase is `LISTENING`; in exactly that case the
resulting phase is `RESPONDING` and the emitted action carries `t`. -/
theorem c1_start_agent_turn_iff (s : AppState) (e : Event) :
    ((∃ t, Action.StartAgentTurn t ∈ (process_event s e).2) ↔
      ∃ t, e = Event.FluxEndOfTurn t ∧ t ≠ "" ∧ s.phase = Phase.LISTENING) ∧
    (∀ t, e = Event.FluxEndOfTurn t → t ≠ "" → s.phase = Phase.LISTENING →
      (process_event s e).1.phase = Phase.RESPONDING ∧
      (process_event s e).2 = [Action.StartAgentTurn t]) := by
  constructor
  · cases e <;> simp only [process_event]
    · simp
    · split <;> simp
    · simp
    · split <;> simp
    case FluxEndOfTurn t =>
      by_cases ht : t = "" <;> by_cases hp : s.phase = Phase.LISTENING <;>
        simp [ht, hp]
    · split <;> simp
  · intro t he ht hp
    subst he
    simp [process_event, ht, hp]

/-- Witness for C1 at a concrete listening state and non-empty transcript. -/
theorem c1_start_agent_turn_iff_witness :
    (process_event ⟨Phase.LISTENING, some "SID"⟩
        (Event.FluxEndOfTurn "hello")).1.phase = Phase.RESPONDING ∧
    (process_event ⟨Phase.LISTENING, some "SID"⟩
        (Event.FluxEndOfTurn "hello")).2 = [Action.StartAgentTurn "hello"] :=
  (c1_start_agent_turn_iff ⟨Phase.LISTENING, some "SID"⟩
    (Event.FluxEndOfTurn "hello")).2 "hello" rfl (by decide) rfl

/-- C2: `ResetAgentTurn` is emitted iff the event is `FluxStartOfTurn` in
phase `RESPONDING` or `StreamStop` in phase `RESPONDING`; and no single
transition step emits both a `StartAgentTurn` and a `ResetAgentTurn`. -/
theorem c2_reset_agent_turn_iff (s : AppState) (e : Event) :
    (Action.ResetAgentTurn ∈ (process_event s e).2 ↔
      (e = Event.FluxStartOfTurn ∧ s.phase = Phase.RESPONDING) ∨
      (e = Event.StreamStop ∧ s.phase = Phase.RESPONDING)) ∧
    ¬((∃ t, Action.StartAgentTurn t ∈ (process_event s e).2) ∧
      Action.ResetAgentTurn ∈ (process_event s e).2) := by
  constructor
  · cases e <;> simp only [process_event]
    · simp
    case StreamStop =>
      by_cases hp : s.phase = Phase.RESPONDING <;> simp [hp]
    · simp
    case FluxStartOfTurn =>
      by_cases hp : s.phase = Phase.RESPONDING <;> simp [hp]
    · split <;> simp
    · split <;> simp
  · rintro ⟨⟨t, hstart⟩, hreset⟩
    cases e <;> simp only [process_event] at hstart hreset <;>
      [skip; split at hstart; skip; split at hstart; split at hstart; split at hstart] <;>
      simp_all

/-- Witness for C2: `StreamStop` in a responding state emits
`ResetAgentTurn`. -/
theorem c2_reset_agent_turn_iff_witness :
    Action.ResetAgentTurn ∈
      (process_event ⟨Phase.RESPONDING, some "SID"⟩ Event.StreamStop).2 :=
  (c2_reset_agent_turn_iff ⟨Phase.RESPONDING, some "SID"⟩
    Event.StreamStop).1.mpr (Or.inr ⟨rfl, rfl⟩)

/-- C8 counterexample: a state that already carries `stream_sid = some "A"`
fed a second `StreamStart "B"` event ends with `stream_sid = some "B"`:
the pure transition does mutate an already-assigned stream id. -/
theorem c8_stream_sid_counterexample :
    (process_event ⟨Phase.LISTENING, some "A"⟩
        (Event.StreamStart "B")).1.stream_sid ≠ some "A" := by
  decide

/-- C8 amended: the pure transition changes `stream_sid` only on
`StreamStart` events; any other event preserves it, and `StreamStart sid`
always sets it to `some sid` (overwriting any previous assignment). -/
theorem c8_stream_sid_only_on_stream_start (s : AppState) (e : Event) :
    ((∀ sid, e ≠ Event.StreamStart sid) →
      (process_event s e).1.stream_sid = s.stream_sid) ∧
    (∀ sid, e = Event.StreamStart sid →
      (process_event s e).1.stream_sid = some sid) := by
  constructor
  · intro hne
    cases e <;> simp only [process_event]
    case StreamStart sid => exact absurd rfl (hne sid)
    all_goals split <;> rfl
  · rintro sid rfl
    rfl

/-- Witness for C8's amended theorem: `Media` preserves `stream_sid` and a
concrete `StreamStart` assigns it. -/
theorem c8_stream_sid_only_on_stream_start_witness :
    (process_event ⟨Phase.LISTENING, some "A"⟩
        (Event.Media [0])).1.stream_sid = some "A" ∧
    (process_event ⟨Phase.LISTENING, some "A"⟩
        (Event.StreamStart "B")).1.stream_sid = some "B" :=
  ⟨(c8_stream_sid_only_on_stream_start ⟨Phase.LISTENING, some "A"⟩
      (Event.Media [0])).1 (by intro sid h; cases h),
   (c8_stream_sid_only_on_stream_start ⟨Phase.LISTENING, some "A"⟩
      (Event.StreamStart "B")).2 "B" rfl⟩

/-! ## Conversation history and the LLM per-turn discipline
(shuo/services/llm.py `LLMService.start` / `LLMService._generate`) -/

/-- Role of a history entry. -/
inductive Role
| user
| assistant
deriving DecidableEq, Repr

/-- One `{role, content}` history entry. -/
structure Msg where
  role : Role
  content : String
deriving DecidableEq, Repr

/-- How a single `_generate` run ends: the stream is consumed to the end
and the run finishes (`completed`); a `CancelledError` is delivered
mid-stream, after `k` stream deltas were consumed (`cancelled k`); the
stream is consumed to the end, the completion guard passes and the normal
assistant append happens, but a `CancelledError` is delivered while
`_generate` awaits `self._on_done()` (`cancelledInDone`); or a
non-cancellation exception is raised after `k` deltas (`errored k`). -/
inductive Outcome
| completed
| cancelled (k : Nat)
| cancelledInDone
| errored (k : Nat)
deriving DecidableEq, Repr

/-- One agent turn as the LLM sees it: the user message passed to `start`,
the stream's content deltas, and how the run ended. -/
structure Turn where
  user_message : String
  deltas : List String
  outcome : Outcome
deriving DecidableEq, Repr

/-- The stream deltas actually consumed by the `async for` loop before the
run ended. -/
def consumed_deltas (t : Turn) : List String :=
  match t.outcome with
  | .completed => t.deltas
  | .cancelled k => t.deltas.take k
  | .cancelledInDone => t.deltas
  | .errored k => t.deltas.take k

/-- The tokens delivered to `on_token`: `_generate` forwards a delta only
when `delta.content` is truthy, i.e. non-empty. -/
def emitted_tokens (t : Turn) : List String :=
  (consumed_deltas t).filter (fun s => decide (s ≠ ""))

/-- The `assistant_response` accumulator of `_generate`: the concatenation
of the emitted tokens. -/
def assistant_response (t : Turn) : String :=
  (emitted_tokens t).foldl (fun acc tok => acc ++ tok) ""

/-- The ellipsis marker `_generate` appends to a cancelled response. -/
def ELLIPSIS : String := "..."

/-- History update of one turn: `start` appends the user message, then
`_generate` appends an assistant entry on normal completion when the
response is non-empty, appends the truncated response plus `ELLIPSIS` on
mid-stream cancellation when it is non-empty, and appends nothing on
error.  When the cancellation is instead delivered during
`await self._on_done()` — reachable only when the completion guard
`self._running and assistant_response` passed, hence with a non-empty
response — the normal append has already happened and the
`except CancelledError` handler appends the response plus `ELLIPSIS` a
second time, yielding two assistant entries for the turn. -/
def run_turn (h : List Msg) (t : Turn) : List Msg :=
  let h1 := h ++ [⟨Role.user, t.user_message⟩]
  match t.outcome with
  | .completed =>
      if assistant_response t = "" then h1
      else h1 ++ [⟨Role.assistant, assistant_response t⟩]
  | .cancelled _ =>
      if assistant_response t = "" then h1
      else h1 ++ [⟨Role.assistant, assistant_response t ++ ELLIPSIS⟩]
  | .cancelledInDone =>
      if assistant_response t = "" then h1
      else h1 ++ [⟨Role.assistant, assistant_response t⟩,
                  ⟨Role.assistant, assistant_response t ++ ELLIPSIS⟩]
  | .errored _ => h1

/-- Whether `_generate` invokes `on_done` for this turn: on normal
completion only when the response is non-empty, never on mid-stream
cancellation (the exception is re-raised), on a cancellation during the
`on_done` await exactly when the guard passed (non-empty response),
always on a non-cancellation error. -/
def on_done_called (t : Turn) : Bool :=
  match t.outcome with
  | .completed => decide (assistant_response t ≠ "")
  | .cancelled _ => false
  | .cancelledInDone => decide (assistant_response t ≠ "")
  | .errored _ => true

/-- Number of `tts.flush()` calls the agent makes for the turn:
`_on_llm_done` (shuo/agent_turn.py) flushes exactly when the `on_done`
callback fires while the turn is active with a bound TTS session. -/
def tts_flush_count (t : Turn) : Nat :=
  if on_done_called t then 1 else 0

/-- Conversation history after a sequence of turns, starting empty. -/
def history_after (ts : List Turn) : List Msg :=
  ts.foldl run_turn []

/-- A string append is empty only when both sides are. -/
theorem append_eq_empty_iff (s t : String) : s ++ t = "" ↔ s = "" ∧ t = "" := by
  constructor
  · intro h
    have hd : s.data ++ t.data = [] := by
      have h2 := congrArg String.data h
      rwa [String.data_append] at h2
    rcases List.append_eq_nil.1 hd with ⟨hs, ht⟩
    exact ⟨String.ext (by simpa using hs), String.ext (by simpa using ht)⟩
  · rintro ⟨rfl, rfl⟩
    rfl

/-- Folding string append over a list starting from a non-empty accumulator
never yields the empty string. -/
theorem foldl_append_ne_empty (l : List String) (a : String) (ha : a ≠ "") :
    l.foldl (fun acc tok => acc ++ tok) a ≠ "" := by
  induction l generalizing a with
  | nil => exact ha
  | cons b r ih =>
      refine ih (a ++ b) ?_
      intro hab
      exact ha ((append_eq_empty_iff a b).1 hab).1

/-- The accumulated response is empty exactly when no token was emitted. -/
theorem assistant_response_eq_empty_iff (t : Turn) :
    assistant_response t = "" ↔ emitted_tokens t = [] := by
  constructor
  · intro h
    by_contra hne
    cases hl : emitted_tokens t with
    | nil => exact hne hl
    | cons s r =>
        have hs : s ≠ "" := by
          have := List.of_mem_filter (a := s) (l := consumed_deltas t)
            (by rw [← emitted_tokens, hl]; exact List.mem_cons_self s r)
          simpa using this
        have : assistant_response t ≠ "" := by
          unfold assistant_response
          rw [hl]
          simp only [List.foldl_cons]
          have hs' : ("" : String) ++ s ≠ "" := by
            intro he
            exact hs ((append_eq_empty_iff "" s).1 he).2
          exact foldl_append_ne_empty r ("" ++ s) hs'
        exact this h
  · intro h
    unfold assistant_response
    rw [h]
    rfl

/-- C3: a turn started with transcript `u` and cancelled after `k` stream
deltas leaves history `prev ++ [user u, assistant (resp ++ ELLIPSIS)]`
when at least one token was emitted (`resp` being the concatenation of
the tokens seen so far), and `prev ++ [user u]` when none was. -/
theorem c3_cancelled_turn_history (prev : List Msg) (u : String)
    (deltas : List String) (k : Nat) :
    (emitted_tokens ⟨u, deltas, .cancelled k⟩ ≠ [] →
      run_turn prev ⟨u, deltas, .cancelled k⟩ =
        prev ++ [⟨Role.user, u⟩,
          ⟨Role.assistant, assistant_response ⟨u, deltas, .cancelled k⟩ ++ ELLIPSIS⟩]) ∧
    (emitted_tokens ⟨u, deltas, .cancelled k⟩ = [] →
      run_turn prev ⟨u, deltas, .cancelled k⟩ = prev ++ [⟨Role.user, u⟩]) := by
  constructor
  · intro hne
    have hresp : ¬ assistant_response ⟨u, deltas, .cancelled k⟩ = "" := by
      rw [assistant_response_eq_empty_iff]
      exact hne
    simp [run_turn, hresp]
  · intro hnil
    have hresp : assistant_response ⟨u, deltas, .cancelled k⟩ = "" :=
      (assistant_response_eq_empty_iff _).2 hnil
    simp [run_turn, hresp]

/-- Witness for C3: one token then cancellation appends the truncated
response with the marker; cancellation before any token appends only the
user entry. -/
theorem c3_cancelled_turn_history_witness :
    run_turn [] ⟨"hi", ["He", "y"], .cancelled 2⟩ =
      [⟨Role.user, "hi"⟩, ⟨Role.assistant, "Hey" ++ ELLIPSIS⟩] ∧
    run_turn [] ⟨"hi", ["He", "y"], .cancelled 0⟩ = [⟨Role.user, "hi"⟩] := by
  constructor
  · have h := (c3_cancelled_turn_history [] "hi" ["He", "y"] 2).1 (by decide)
    rw [h]
    rfl
  · exact (c3_cancelled_turn_history [] "hi" ["He", "y"] 0).2 (by decide)

/-- C9: a stream that finishes normally with zero content tokens appends
no assistant entry (history gains only the user message), does not invoke
`on_done`, and triggers no TTS flush. -/
theorem c9_empty_completion (prev : List Msg) (t : Turn)
    (hc : t.outcome = .completed) (hz : emitted_tokens t = []) :
    run_turn prev t = prev ++ [⟨Role.user, t.user_message⟩] ∧
    on_done_called t = false ∧ tts_flush_count t = 0 := by
  have hresp : assistant_response t = "" := (assistant_response_eq_empty_iff t).2 hz
  refine ⟨?_, ?_, ?_⟩
  · simp [run_turn, hc, hresp]
  · simp [on_done_called, hc, hresp]
  · simp [tts_flush_count, on_done_called, hc, hresp]

/-- Witness for C9: a completed run whose only delta is the empty string. -/
theorem c9_empty_completion_witness :
    run_turn [] ⟨"hi", [""], .completed⟩ = [⟨Role.user, "hi"⟩] ∧
    on_done_called ⟨"hi", [""], .completed⟩ = false ∧
    tts_flush_count ⟨"hi", [""], .completed⟩ = 0 :=
  c9_empty_completion [] ⟨"hi", [""], .completed⟩ rfl (by decide)

/-- The spec's claimed history invariant, stated as written: roles strictly
alternate (no two consecutive entries share a role) and the first entry,
if any, has role `user`. -/
def spec_history_invariant (h : List Msg) : Prop :=
  List.Chain' (fun a b => a.role ≠ b.role) h ∧
  ∀ m ∈ h.head?, m.role = Role.user

/-- Block structure of reachable histories: a history is a concatenation
of per-turn blocks, each a user entry followed by zero, one, or two
assistant entries (two only on the interrupted-`on_done` path). -/
inductive TurnBlocks : List Msg → Prop
| nil : TurnBlocks []
| block (u : String) (tail rest : List Msg)
    (htail : tail = [] ∨ (∃ a, tail = [⟨Role.assistant, a⟩]) ∨
      (∃ a b, tail = [⟨Role.assistant, a⟩, ⟨Role.assistant, b⟩]))
    (hrest : TurnBlocks rest) :
    TurnBlocks (⟨Role.user, u⟩ :: (tail ++ rest))

/-- A block-structured history stays block-structured when one more block
is appended at its end. -/
theorem turnBlocks_append (h : List Msg) (hh : TurnBlocks h) :
    ∀ (u : String) (tail : List Msg),
      (tail = [] ∨ (∃ a, tail = [⟨Role.assistant, a⟩]) ∨
        (∃ a b, tail = [⟨Role.assistant, a⟩, ⟨Role.assistant, b⟩])) →
      TurnBlocks (h ++ ⟨Role.user, u⟩ :: tail) := by
  induction hh with
  | nil =>
      intro u tail htail
      have heq : (⟨Role.user, u⟩ : Msg) :: tail =
          ⟨Role.user, u⟩ :: (tail ++ []) := by simp
      rw [List.nil_append, heq]
      exact TurnBlocks.block u tail [] htail TurnBlocks.nil
  | block u' tail' rest' htail' hrest' ih =>
      intro u tail htail
      have heq : ((⟨Role.user, u'⟩ : Msg) :: (tail' ++ rest')) ++
            ⟨Role.user, u⟩ :: tail =
          ⟨Role.user, u'⟩ :: (tail' ++ (rest' ++ ⟨Role.user, u⟩ :: tail)) := by
        simp [List.append_assoc]
      rw [heq]
      exact TurnBlocks.block u' tail' _ htail' (ih u tail htail)

/-- A block-structured history starts with a user entry, if non-empty. -/
theorem turnBlocks_head_user (h : List Msg) (hh : TurnBlocks h) :
    ∀ m ∈ h.head?, m.role = Role.user := by
  cases hh with
  | nil =>
      intro m hm
      cases hm
  | block u tail rest htail hrest =>
      intro m hm
      have hmu : (⟨Role.user, u⟩ : Msg) = m := by simpa using hm
      subst hmu
      rfl

/-- Every `run_turn` application appends one block at the end of the
history: the user entry, then no assistant entry, one, or — on the
interrupted-`on_done` path — two. -/
theorem run_turn_block (h : List Msg) (t : Turn) :
    ∃ tail, run_turn h t = h ++ ⟨Role.user, t.user_message⟩ :: tail ∧
      (tail = [] ∨ (∃ a, tail = [⟨Role.assistant, a⟩]) ∨
        (∃ a b, tail = [⟨Role.assistant, a⟩, ⟨Role.assistant, b⟩])) := by
  unfold run_turn
  cases t.outcome with
  | completed =>
      by_cases hr : assistant_response t = ""
      · exact ⟨[], by simp [hr], Or.inl rfl⟩
      · exact ⟨[⟨Role.assistant, assistant_response t⟩],
          by simp [hr], Or.inr (Or.inl ⟨_, rfl⟩)⟩
  | cancelled k =>
      by_cases hr : assistant_response t = ""
      · exact ⟨[], by simp [hr], Or.inl rfl⟩
      · exact ⟨[⟨Role.assistant, assistant_response t ++ ELLIPSIS⟩],
          by simp [hr], Or.inr (Or.inl ⟨_, rfl⟩)⟩
  | cancelledInDone =>
      by_cases hr : assistant_response t = ""
      · exact ⟨[], by simp [hr], Or.inl rfl⟩
      · exact ⟨[⟨Role.assistant, assistant_response t⟩,
               ⟨Role.assistant, assistant_response t ++ ELLIPSIS⟩],
          by simp [hr], Or.inr (Or.inr ⟨_, _, rfl⟩)⟩
  | errored k => exact ⟨[], by simp, Or.inl rfl⟩

/-- C4 counterexample: two zero-token completions leave `[user, user]`,
and a turn cancelled during the `on_done` await leaves
`[user, assistant, assistant]`; each violates the claimed strict
alternation of roles. -/
theorem c4_alternation_counterexample :
    ¬ spec_history_invariant
        (history_after [⟨"a", [], .completed⟩, ⟨"b", [], .completed⟩]) ∧
    ¬ spec_history_invariant
        (history_after [⟨"a", ["X"], .cancelledInDone⟩]) := by
  constructor
  · have hh : history_after [⟨"a", [], .completed⟩, ⟨"b", [], .completed⟩] =
        [⟨Role.user, "a"⟩, ⟨Role.user, "b"⟩] := rfl
    rw [spec_history_invariant, hh]
    rintro ⟨hchain, -⟩
    exact (List.chain'_cons.1 hchain).1 rfl
  · have hh : history_after [⟨"a", ["X"], .cancelledInDone⟩] =
        [⟨Role.user, "a"⟩, ⟨Role.assistant, "X"⟩,
          ⟨Role.assistant, "X" ++ ELLIPSIS⟩] := rfl
    rw [spec_history_invariant, hh]
    rintro ⟨hchain, -⟩
    exact (List.chain'_cons.1 (List.chain'_cons.1 hchain).2).1 rfl

/-- C4 amended: every reachable history is a concatenation of per-turn
blocks — a user entry followed by at most two assistant entries (none
when the turn yielded no assistant text, one normally, two when
cancellation lands during the completion callback) — and in particular
the first entry, if any, is a user entry.  Strict alternation fails in
both directions. -/
theorem c4_amended_history_blocks (ts : List Turn) :
    TurnBlocks (history_after ts) ∧
    ∀ m ∈ (history_after ts).head?, m.role = Role.user := by
  have key : ∀ (ts : List Turn) (h : List Msg), TurnBlocks h →
      TurnBlocks (ts.foldl run_turn h) := by
    intro ts
    induction ts with
    | nil =>
        intro h hh
        exact hh
    | cons t rest ih =>
        intro h hh
        simp only [List.foldl_cons]
        refine ih (run_turn h t) ?_
        obtain ⟨tail, heq, htail⟩ := run_turn_block h t
        rw [heq]
        exact turnBlocks_append h hh t.user_message tail htail
  have h1 : TurnBlocks (history_after ts) := key ts [] TurnBlocks.nil
  exact ⟨h1, turnBlocks_head_user _ h1⟩

/-- Witness for C4's amended theorem at a concrete run containing an
interrupted-`on_done` turn. -/
theorem c4_amended_history_blocks_witness :
    TurnBlocks (history_after
      [⟨"a", ["X"], .completed⟩, ⟨"b", ["Y"], .cancelledInDone⟩]) :=
  (c4_amended_history_blocks
    [⟨"a", ["X"], .completed⟩, ⟨"b", ["Y"], .cancelledInDone⟩]).1

/-- C5 counterexample: a non-cancellation error after the token `"A"` was
emitted leaves the history with only the user entry; the truncated text is
*not* appended with the ellipsis marker. -/
theorem c5_error_counterexample :
    run_turn [] ⟨"hi", ["A"], .errored 1⟩ = [⟨Role.user, "hi"⟩] ∧
    run_turn [] ⟨"hi", ["A"], .errored 1⟩ ≠
      [⟨Role.user, "hi"⟩, ⟨Role.assistant, "A" ++ ELLIPSIS⟩] := by
  decide

/-- C5 amended: on a non-cancellation mid-stream error the partial
assistant text is discarded (no assistant entry is appended), and
`on_done` is invoked, which drives the pipeline to synthesize
`AgentTurnDone`, on which the state machine returns to `Listening`. -/
theorem c5_error_discards_text (prev : List Msg) (t : Turn) (k : Nat)
    (he : t.outcome = .errored k) :
    run_turn prev t = prev ++ [⟨Role.user, t.user_message⟩] ∧
    on_done_called t = true ∧
    ∀ sid, process_event ⟨Phase.RESPONDING, sid⟩ Event.AgentTurnDone =
      (⟨Phase.LISTENING, sid⟩, []) := by
  refine ⟨?_, ?_, ?_⟩
  · simp [run_turn, he]
  · simp [on_done_called, he]
  · intro sid
    rfl

/-- Witness for C5's amended theorem at a concrete errored turn. -/
theorem c5_error_discards_text_witness :
    run_turn [] ⟨"hi", ["A"], .errored 1⟩ = [⟨Role.user, "hi"⟩] ∧
    on_done_called ⟨"hi", ["A"], .errored 1⟩ = true ∧
    ∀ sid, process_event ⟨Phase.RESPONDING, sid⟩ Event.AgentTurnDone =
      (⟨Phase.LISTENING, sid⟩, []) :=
  c5_error_discards_text [] ⟨"hi", ["A"], .errored 1⟩ 1 rfl

/-! ## TTS connection pool (shuo/services/tts_pool.py `TTSPool.get`) -/

/-- A pooled TTS connection (`_Entry`): a session identifier standing for
the `TTSService` object, and its `time.monotonic()` creation timestamp. -/
structure PoolEntry where
  sid : Nat
  created_at : Int
deriving DecidableEq, Repr

/-- Whether a pooled entry is stale at time `now`: its age has reached the
TTL. -/
def is_stale (ttl now : Int) (e : PoolEntry) : Bool :=
  decide (ttl ≤ now - e.created_at)

/-- Result of `TTSPool.get`: a warm entry rebound to the caller's
callbacks, or a freshly opened session. -/
inductive GetResult
| warm (e : PoolEntry)
| fresh
deriving DecidableEq, Repr

/-- The dispensing loop of `TTSPool.get` at dispatch time `now`: pop
entries from the front of `ready`; a popped entry whose age is below the
TTL is rebound and returned together with the remaining list; a stale
popped entry is cancelled and recorded as discarded; an empty list means a
fresh session is opened.  Returns `(result, remaining ready list,
discarded entries in pop order)`. -/
def pool_get (ttl now : Int) : List PoolEntry → GetResult × List PoolEntry × List PoolEntry
| [] => (.fresh, [], [])
| e :: rest =>
    if now - e.created_at < ttl then (.warm e, rest, [])
    else
      let r := pool_get ttl now rest
      (r.1, r.2.1, e :: r.2.2)

/-- C6: `get` returns either a warm session whose age at dispatch is
strictly below the TTL — namely the first non-stale entry in FIFO order —
or a fresh session (exactly when no warm entry is non-stale); the
discarded entries are precisely the popped stale ones, in FIFO order, and
each has age at least the TTL. -/
theorem c6_pool_get_characterization (ttl now : Int) (ready : List PoolEntry) :
    (∀ e, (pool_get ttl now ready).1 = .warm e →
      now - e.created_at < ttl ∧
      (ready.dropWhile (is_stale ttl now)).head? = some e ∧
      (pool_get ttl now ready).2.1 = (ready.dropWhile (is_stale ttl now)).tail) ∧
    ((pool_get ttl now ready).1 = .fresh →
      ready.dropWhile (is_stale ttl now) = []) ∧
    (pool_get ttl now ready).2.2 = ready.takeWhile (is_stale ttl now) ∧
    (∀ e ∈ (pool_get ttl now ready).2.2, ttl ≤ now - e.created_at) := by
  induction ready with
  | nil =>
      refine ⟨?_, ?_, ?_, ?_⟩
      · intro e h
        cases h
      · intro _
        rfl
      · rfl
      · intro e h
        cases h
  | cons a rest ih =>
      by_cases ha : now - a.created_at < ttl
      · have hstale : is_stale ttl now a = false := by
          simp [is_stale]
          omega
        refine ⟨?_, ?_, ?_, ?_⟩
        · intro e he
          have he' : a = e := by
            simp only [pool_get, if_pos ha] at he
            cases he
            rfl
          subst he'
          refine ⟨ha, ?_, ?_⟩
          · simp [List.dropWhile, hstale]
          · simp [pool_get, if_pos ha, List.dropWhile, hstale]
        · intro hf
          simp only [pool_get, if_pos ha] at hf
          cases hf
        · simp [pool_get, if_pos ha, List.takeWhile, hstale]
        · intro e he
          simp only [pool_get, if_pos ha] at he
          cases he
      · have hstale : is_stale ttl now a = true := by
          simp [is_stale]
          omega
        refine ⟨?_, ?_, ?_, ?_⟩
        · intro e he
          simp only [pool_get, if_neg ha] at he
          have h1 := (ih.1 e he).1
          have h2 := (ih.1 e he).2.1
          have h3 := (ih.1 e he).2.2
          refine ⟨h1, ?_, ?_⟩
          · simpa [List.dropWhile, hstale] using h2
          · simpa [pool_get, if_neg ha, List.dropWhile, hstale] using h3
        · intro hf
          simp only [pool_get, if_neg ha] at hf
          have := ih.2.1 hf
          simp [List.dropWhile, hstale, this]
        · simp only [pool_get, if_neg ha]
          simp [List.takeWhile, hstale, ih.2.2.1]
        · intro e he
          simp only [pool_get, if_neg ha] at he
          rcases List.mem_cons.1 he with rfl | hmem
          · omega
          · exact ih.2.2.2 e hmem

/-- Witness for C6: a pool holding one stale and one fresh entry at
`now = 10`, `ttl = 8` discards the stale entry and dispenses the fresh
one. -/
theorem c6_pool_get_characterization_witness :
    (pool_get 8 10 [⟨1, 0⟩, ⟨2, 5⟩]).1 = GetResult.warm ⟨2, 5⟩ ∧
    (10 : Int) - (5 : Int) < 8 ∧
    ([⟨1, 0⟩, ⟨2, 5⟩] : List PoolEntry).dropWhile (is_stale 8 10) =
      [⟨2, 5⟩] ∧
    (pool_get 8 10 [⟨1, 0⟩, ⟨2, 5⟩]).2.2 = [⟨1, 0⟩] := by
  refine ⟨by decide, ?_, by decide, by decide⟩
  exact ((c6_pool_get_characterization 8 10 [⟨1, 0⟩, ⟨2, 5⟩]).1
    ⟨2, 5⟩ (by decide)).1

/-! ## Audio player drain loop (src/player.py `AudioPlayer._playback_loop`,
`send_chunk`, `mark_tts_done`, `stop_and_clear`) -/

/-- Mutable player state shared between the drain task and its
environment. -/
structure PState where
  chunks : List String
  index : Nat
  running : Bool
  tts_done : Bool
  sent : List String
deriving DecidableEq, Repr

/-- Environment interactions that can run while the drain task is
suspended on a timer: `send_chunk` appends a chunk, `mark_tts_done` sets
the completion flag, and `stop_and_clear` first sets `_running = False`
(its cancellation of the task is modelled separately). -/
inductive EnvCmd
| push (chunk : String)
| markDone
| stop
deriving DecidableEq, Repr

/-- Effect of one environment interaction on the player state. -/
def applyCmd (s : PState) (c : EnvCmd) : PState :=
  match c with
  | .push ch => { s with chunks := s.chunks ++ [ch] }
  | .markDone => { s with tts_done := true }
  | .stop => { s with running := false }

/-- What happens at one suspension point (an `asyncio.sleep` in the drain
loop): a batch of environment interactions runs, and optionally the task's
cancellation is delivered there. -/
structure Suspension where
  cmds : List EnvCmd
  cancelHere : Bool
deriving DecidableEq, Repr

/-- How a drain run ends: the break for "input complete and all chunks
sent" (`completed`), the while-condition observing `_running = False`
(`stoppedExit`), or a `CancelledError` delivered at a suspension point
(`cancelledExit`). -/
inductive RunResult
| completed (s : PState)
| stoppedExit (s : PState)
| cancelledExit (s : PState)
deriving DecidableEq, Repr

/-- The drain loop of `_playback_loop`, fuel-bounded: while `_running`,
send the next queued chunk if any (then suspend ~20 ms), else break if
`_tts_done`, else suspend ~10 ms.  Environment batches from `script` run
at the suspension points; `none` means the fuel ran out. -/
def drain : Nat → List Suspension → PState → Option RunResult
| 0, _, _ => none
| Nat.succ fuel, script, s =>
    if s.running = false then some (RunResult.stoppedExit s)
    else if s.index < s.chunks.length then
      let s1 := { s with sent := s.sent ++ [s.chunks.getD s.index ""],
                         index := s.index + 1 }
      match script with
      | [] => drain fuel [] s1
      | susp :: rest =>
          let s2 := susp.cmds.foldl applyCmd s1
          if susp.cancelHere then some (RunResult.cancelledExit s2)
          else drain fuel rest s2
    else if s.tts_done then some (RunResult.completed s)
    else
      match script with
      | [] => drain fuel [] s
      | susp :: rest =>
          let s2 := susp.cmds.foldl applyCmd s
          if susp.cancelHere then some (RunResult.cancelledExit s2)
          else drain fuel rest s2

/-- Number of completion-callback invocations after the loop exits: the
code after the loop runs `self._on_done()` once, guarded by
`if self._running`; a cancelled task re-raises and never reaches it. -/
def done_calls (r : RunResult) : Nat :=
  match r with
  | .completed s => if s.running then 1 else 0
  | .stoppedExit _ => 0
  | .cancelledExit _ => 0

/-- C7: whenever the drain run terminates, a completion exit still has
`_running = true` — so the callback fires exactly once — and at that exit
all queued chunks were sent and input was marked complete; a cancelled
run never invokes the callback. -/
theorem c7_drain_callback (fuel : Nat) (script : List Suspension)
    (s : PState) (r : RunResult) (h : drain fuel script s = some r) :
    (∀ sf, r = .completed sf →
      sf.running = true ∧ done_calls r = 1 ∧
      sf.chunks.length ≤ sf.index ∧ sf.tts_done = true) ∧
    (∀ sf, r = .cancelledExit sf → done_calls r = 0) := by
  induction fuel generalizing script s r with
  | zero => cases h
  | succ fuel ih =>
      refine ⟨?_, ?_⟩
      · intro sf hr
        subst hr
        rw [drain.eq_def] at h
        simp only at h
        by_cases hrun : s.running = false
        · rw [if_pos hrun] at h
          cases h
        · rw [if_neg hrun] at h
          by_cases hidx : s.index < s.chunks.length
          · rw [if_pos hidx] at h
            cases script with
            | nil => exact (ih [] _ _ h).1 sf rfl
            | cons susp rest =>
                simp only at h
                by_cases hc : susp.cancelHere <;> simp [hc] at h
                exact (ih rest _ _ h).1 sf rfl
          · rw [if_neg hidx] at h
            by_cases hdone : s.tts_done
            · rw [if_pos hdone] at h
              have hs : s = sf := by
                cases h
                rfl
              subst hs
              have hrun' : s.running = true := by
                cases hr2 : s.running
                · exact absurd hr2 hrun
                · rfl
              refine ⟨hrun', by simp [done_calls, hrun'], by omega, hdone⟩
            · rw [if_neg hdone] at h
              cases script with
              | nil => exact (ih [] _ _ h).1 sf rfl
              | cons susp rest =>
                  simp only at h
                  by_cases hc : susp.cancelHere <;> simp [hc] at h
                  exact (ih rest _ _ h).1 sf rfl
      · intro sf hr
        subst hr
        rfl

/-- Witness for C7: a one-chunk queue with input already complete drains
to a completion exit with exactly one callback invocation. -/
theorem c7_drain_callback_witness :
    drain 3 [] ⟨["a"], 0, true, true, []⟩ =
      some (RunResult.completed ⟨["a"], 1, true, true, ["a"]⟩) ∧
    done_calls (RunResult.completed ⟨["a"], 1, true, true, ["a"]⟩) = 1 := by
  refine ⟨by decide, ?_⟩
  exact (((c7_drain_callback 3 [] ⟨["a"], 0, true, true, []⟩
    (RunResult.completed ⟨["a"], 1, true, true, ["a"]⟩) (by decide)).1
      ⟨["a"], 1, true, true, ["a"]⟩ rfl).2).1

/-! ## Recognizer transcript delivery (shuo/services/flux.py
`FluxService._on_message`, `EndOfTurn` branch) -/

/-- Removing leading and trailing whitespace from a character list: the
semantics of Python's `str.strip()` used by `_on_message`. -/
def strip_chars (l : List Char) : List Char :=
  ((l.dropWhile Char.isWhitespace).reverse.dropWhile Char.isWhitespace).reverse

/-- `transcript.strip()` on a string. -/
def py_strip (s : String) : String :=
  String.mk (strip_chars s.data)

/-- The transcript handed to `on_end_of_turn` (and hence put on the loop's
queue as a `FluxEndOfTurnEvent`): `_on_message` evaluates
`getattr(message, "transcript", "") or ""` — a missing or null attribute
becomes the empty string — and then calls `.strip()`. -/
def flux_delivered_transcript (raw : Option String) : String :=
  py_strip (raw.getD "")

/-- Dropping while a predicate holds leaves a list whose head falsifies
the predicate. -/
theorem dropWhile_head_false (p : Char → Bool) (l : List Char) :
    ∀ c ∈ (l.dropWhile p).head?, p c = false := by
  induction l with
  | nil =>
      intro c hc
      cases hc
  | cons a t ih =>
      intro c hc
      by_cases ha : p a
      · rw [List.dropWhile_cons_of_pos ha] at hc
        exact ih c hc
      · rw [List.dropWhile_cons_of_neg ha] at hc
        have : a = c := by simpa using hc
        subst this
        simpa using ha

/-- `dropWhile` over a list ending in an element that falsifies the
predicate keeps that final element. -/
theorem dropWhile_append_keep (p : Char → Bool) (a : Char) (ha : p a = false) :
    ∀ m : List Char, (m ++ [a]).dropWhile p = m.dropWhile p ++ [a] := by
  intro m
  induction m with
  | nil => simp [List.dropWhile, ha]
  | cons b m' ih =>
      by_cases hb : p b
      · simpa [List.dropWhile_cons_of_pos hb] using ih
      · simp [List.dropWhile_cons_of_neg hb]

/-- The stripped character list neither starts nor ends with whitespace. -/
theorem strip_chars_no_edge_whitespace (l : List Char) :
    (∀ c ∈ (strip_chars l).head?, c.isWhitespace = false) ∧
    (∀ c ∈ (strip_chars l).getLast?, c.isWhitespace = false) := by
  constructor
  · intro c hc
    unfold strip_chars at hc
    cases h1 : l.dropWhile Char.isWhitespace with
    | nil => rw [h1] at hc; cases hc
    | cons a t =>
        have ha : Char.isWhitespace a = false :=
          dropWhile_head_false Char.isWhitespace l a (by rw [h1]; rfl)
        rw [h1] at hc
        have hrev : (a :: t).reverse = t.reverse ++ [a] := by
          simp
        rw [hrev, dropWhile_append_keep Char.isWhitespace a ha] at hc
        rw [List.reverse_append] at hc
        have : a = c := by simpa using hc
        subst this
        exact ha
  · intro c hc
    unfold strip_chars at hc
    rw [List.getLast?_reverse] at hc
    exact dropWhile_head_false Char.isWhitespace _ c hc

/-- C10: the `EndOfTurn` transcript delivered to the loop is the raw
transcript stripped of leading and trailing whitespace (so it neither
starts nor ends with a whitespace character), and a raw transcript made
only of whitespace is delivered as the empty string, on which the pure
transition starts no agent turn in any state. -/
theorem c10_transcript_stripped (raw : Option String) (st : AppState) :
    flux_delivered_transcript raw = py_strip (raw.getD "") ∧
    (∀ c ∈ (flux_delivered_transcript raw).data.head?, c.isWhitespace = false) ∧
    (∀ c ∈ (flux_delivered_transcript raw).data.getLast?, c.isWhitespace = false) ∧
    ((∀ c ∈ (raw.getD "").data, c.isWhitespace = true) →
      flux_delivered_transcript raw = "" ∧
      process_event st (Event.FluxEndOfTurn (flux_delivered_transcript raw)) =
        (st, [])) := by
  refine ⟨rfl, ?_, ?_, ?_⟩
  · exact (strip_chars_no_edge_whitespace (raw.getD "").data).1
  · exact (strip_chars_no_edge_whitespace (raw.getD "").data).2
  · intro hws
    have hdrop : (raw.getD "").data.dropWhile Char.isWhitespace = [] := by
      rw [List.dropWhile_eq_nil_iff]
      intro c hc
      exact hws c hc
    have hempty : flux_delivered_transcript raw = "" := by
      show String.mk (strip_chars (raw.getD "").data) = ""
      rw [strip_chars, hdrop]
      rfl
    refine ⟨hempty, ?_⟩
    rw [hempty]
    show process_event st (Event.FluxEndOfTurn "") = (st, [])
    simp [process_event]

/-- Witness for C10 at the whitespace-only raw transcript `" "` and a
concrete listening state. -/
theorem c10_transcript_stripped_witness :
    flux_delivered_transcript (some "  hi") = "hi" ∧
    flux_delivered_transcript (some " ") = "" ∧
    process_event ⟨Phase.LISTENING, some "SID"⟩
        (Event.FluxEndOfTurn (flux_delivered_transcript (some " "))) =
      (⟨Phase.LISTENING, some "SID"⟩, []) := by
  refine ⟨by decide, ?_, ?_⟩
  · exact ((c10_transcript_stripped (some " ")
      ⟨Phase.LISTENING, some "SID"⟩).2.2.2 (by decide)).1
  · exact ((c10_transcript_stripped (some " ")
      ⟨Phase.LISTENING, some "SID"⟩).2.2.2 (by decide)).2

end Shuo
